import Mathlib

/-!
Verification development for the stream-deck input decoder (`src/input.rs`).

The decoder consumes one fixed-length 36-byte raw report (`cmd : &[u8; 36]`)
per call together with a per-model device descriptor, and produces a list of
input events while maintaining session-scoped edge-detection state
(`pressed_keys`, `pressed_dials`).

Modelling conventions:
- a raw report is a total function `Report = Nat → Nat`; the u8 byte bound
  (`≤ 255`) is an explicit hypothesis where a statement depends on it, and
  index bounds (`< 36`) are treated by the dedicated accessed-index sets;
- machine-integer casts are explicit: `toU8 n = n % 256` models `as u8`;
- Rust `HashSet` is modelled as `Finset ℕ`.  Its iteration order during
  `retain` is unspecified in Rust; the released-event block is modelled in
  ascending index order.  All order-sensitive statements below only concern
  the relative order of events for a single index, which is independent of
  that choice;
- fallible operations return `Except Error`.
-/

namespace StreamdeckInput

/-- `as u8` cast: truncation modulo 256. -/
def toU8 (n : ℕ) : ℕ := n % 256

/-- Key numbering direction of a device model (`KeyDirection` in the crate root). -/
inductive KeyDirection where
  | RightToLeft : KeyDirection
  | LeftToRight : KeyDirection
deriving DecidableEq

/-- Byte offsets of the touchscreen report fields, as used by
`handle_touchscreen_event` (`kind.touch_data_indices()`).  The decoder reads
`event_type_index`, the two-byte big-endian x and y positions, the two-byte
drag end x, and the single-byte drag end y. -/
structure TouchDataIndices where
  event_type_index : ℕ
  x_low : ℕ
  x_high : ℕ
  y_low : ℕ
  y_high : ℕ
  drag_x_low : ℕ
  drag_x_high : ℕ
  drag_y : ℕ
deriving DecidableEq

/-- Modelled from the spec: the per-model descriptor table (the `Kind` enum
and its accessor methods `keys()`, `key_data_offset()`, `key_index_offset()`,
`key_direction()`, `dials()`, `dial_data_offset()`, `dial_press_flag_index()`,
`touch_data_indices()`, and the `kind == Kind::Plus` capability test) lives in
the crate root, which is absent from `src/`.  It is modelled as a record of
those accessors, following the spec's §3 `DeviceDescriptor` field list.
`isPlus` models the `kind == Kind::Plus` test in `handle_input` (per the code
comment, only the SD Plus has dials and a touchscreen).  `keys`, `dials` and
`key_index_offset` are `u8` in the source; their `≤ 255` bounds are the
well-formedness predicate `Kind.WF`. -/
structure Kind where
  isPlus : Bool
  keys : ℕ
  key_data_offset : ℕ
  key_index_offset : ℕ
  key_direction : KeyDirection
  dials : ℕ
  dial_data_offset : ℕ
  dial_press_flag_index : ℕ
  touch_data_indices : Option TouchDataIndices
deriving DecidableEq

/-- The `u8` bounds of the descriptor fields that are `u8`-typed in the source
(`keys: u8`, `dials: u8`, `key_index_offset: u8`). -/
def Kind.WF (k : Kind) : Prop :=
  k.keys ≤ 255 ∧ k.dials ≤ 255 ∧ k.key_index_offset ≤ 255

/-- `ButtonAction` from `src/input.rs`. -/
inductive ButtonAction where
  | Pressed : ButtonAction
  | Released : ButtonAction
deriving DecidableEq

/-- `TouchAction` from `src/input.rs`; `Drag` carries the drag end point. -/
inductive TouchAction where
  | Short : TouchAction
  | Long : TouchAction
  | Drag : (x : ℕ) → (y : ℕ) → TouchAction
deriving DecidableEq

/-- `DialAction` from `src/input.rs`; `Turned` carries the signed `i8` delta. -/
inductive DialAction where
  | Pressed : DialAction
  | Released : DialAction
  | Turned : ℤ → DialAction
deriving DecidableEq

/-- `InputEvent` from `src/input.rs`.  Indices and coordinates are `u8`/`u16`
in the source and are modelled as `ℕ` with explicit truncation at cast
sites. -/
inductive InputEvent where
  | Button : (index : ℕ) → (action : ButtonAction) → InputEvent
  | Dial : (index : ℕ) → (action : DialAction) → InputEvent
  | Touch : (x : ℕ) → (y : ℕ) → (action : TouchAction) → InputEvent
deriving DecidableEq

/-- The decoder error.  All three failure sites of the decoder
(unknown classifier byte, missing touch layout, unknown touch event-type
byte) return the same `crate::Error::UnsupportedInput` variant. -/
inductive Error where
  | UnsupportedInput : Error
deriving DecidableEq

/-- The session-scoped edge-detection state of `InputManager`
(`pressed_keys: HashSet<u8>`, `pressed_dials: HashSet<usize>`). -/
structure InputManagerState where
  pressed_keys : Finset ℕ
  pressed_dials : Finset ℕ
deriving DecidableEq

/-- A fresh session starts with both sets empty (`InputManager::new`). -/
def initialState : InputManagerState := ⟨∅, ∅⟩

/-- A raw report, `cmd : &[u8; 36]`: byte at index `i` is `cmd i`. -/
abbrev Report := ℕ → ℕ

/-- A report whose only non-zero byte is a `1` at index `j`. -/
def singleByteReport (j : ℕ) : Report := fun i => if i = j then 1 else 0

/-- The all-zero report. -/
def zeroReport : Report := fun _ => 0

/-- The turn-delta decoding of `handle_dial_event` (lines 143-150):
`if cmd[i] > 127 { delta = -((255 - cmd[i]) as i8) - 1 } else { delta = cmd[i] as i8 }`.
For a byte `b ≤ 255` the subtraction `255 - b` is the `u8` subtraction of the
source (no underflow), and the cast `as i8` is value-preserving since
`255 - b ≤ 127` when `127 < b`. -/
def dialDelta (b : ℕ) : ℤ :=
  if 127 < b then -(((255 - b : ℕ) : ℤ)) - 1 else (b : ℤ)

/-- The logical button index computed for report position `i` in the key
window (lines 202-205):
`RightToLeft => keys as u8 - (i - offset) as u8`,
`LeftToRight => i as u8 + key_index_offset`.
For `RightToLeft` the `u8` subtraction never underflows for window positions
(`i - offset < keys ≤ 255`), so plain truncated subtraction is exact there;
for `LeftToRight` the `u8` addition is modelled wrapping (the source's
release-mode semantics). -/
def buttonIndex (k : Kind) (i : ℕ) : ℕ :=
  match k.key_direction with
  | .RightToLeft => toU8 k.keys - toU8 (i - k.key_data_offset)
  | .LeftToRight => toU8 (toU8 i + k.key_index_offset)

/-- The press-scan loop of `handle_button_event` (lines 196-219), in window
order: for `i in offset..offset+keys`, skip zero bytes, compute the logical
button index, skip indices already in `pressed_keys`, and record the rest.
The source also inserts each recorded index into the `fresh_presses` set;
that set is recovered below as `(freshButtonList ...).toFinset`. -/
def freshButtonList (k : Kind) (cmd : Report) (pressed : Finset ℕ) : List ℕ :=
  (List.range k.keys).filterMap (fun p =>
    if cmd (k.key_data_offset + p) ≠ 0 ∧ buttonIndex k (k.key_data_offset + p) ∉ pressed then
      some (buttonIndex k (k.key_data_offset + p))
    else none)

/-- The `fresh_presses` set accumulated by the press-scan loop of
`handle_button_event`. -/
def buttonFresh (k : Kind) (cmd : Report) (pressed : Finset ℕ) : Finset ℕ :=
  (freshButtonList k cmd pressed).toFinset

/-- The buttons removed by the retain loop of `handle_button_event`
(lines 222-231): members of `pressed_keys` with
`cmd[offset + *button] == 0 && !fresh_presses.contains(button)` — note the
report is indexed by the logical button index, not by the button's window
position.  `HashSet` iteration order is unspecified; modelled in ascending
index order. -/
def buttonReleasedList (k : Kind) (cmd : Report) (pressed : Finset ℕ) : List ℕ :=
  (pressed.filter (fun b =>
    cmd (k.key_data_offset + b) = 0 ∧ b ∉ buttonFresh k cmd pressed)).sort (· ≤ ·)

/-- The `pressed_keys` set after one `handle_button_event` call: the members
retained by the retain loop, extended with the fresh presses (lines 222-234). -/
def buttonAfter (k : Kind) (cmd : Report) (pressed : Finset ℕ) : Finset ℕ :=
  pressed.filter (fun b =>
      ¬(cmd (k.key_data_offset + b) = 0 ∧ b ∉ buttonFresh k cmd pressed))
    ∪ buttonFresh k cmd pressed

/-- `handle_button_event` (lines 190-236).  Returns the emitted events (all
`Pressed` first, in window order, then the `Released` block) and the new
`pressed_keys` set. -/
def handle_button_event (k : Kind) (cmd : Report) (pressed : Finset ℕ) :
    List InputEvent × Finset ℕ :=
  (((freshButtonList k cmd pressed).map (fun b => InputEvent.Button b .Pressed))
     ++ (buttonReleasedList k cmd pressed).map (fun b => InputEvent.Button b .Released),
   buttonAfter k cmd pressed)

/-- The turn branch of `handle_dial_event` (lines 138-157), in window order:
for `i in offset..offset+dials`, skip zero bytes, emit
`Dial { index: (i - offset) as u8, action: Turned(delta) }`. -/
def dialTurnEvents (k : Kind) (cmd : Report) : List InputEvent :=
  (List.range k.dials).filterMap (fun p =>
    if cmd (k.dial_data_offset + p) ≠ 0 then
      some (InputEvent.Dial (toU8 p) (.Turned (dialDelta (cmd (k.dial_data_offset + p)))))
    else none)

/-- The press-scan loop of the dial press branch (lines 159-172), in window
order: positions whose byte equals `1` and whose index `i - offset` is not
already in `pressed_dials`. -/
def freshDialList (k : Kind) (cmd : Report) (pd : Finset ℕ) : List ℕ :=
  (List.range k.dials).filterMap (fun p =>
    if cmd (k.dial_data_offset + p) = 1 ∧ p ∉ pd then some p else none)

/-- The `fresh_presses` set accumulated by the dial press-scan loop. -/
def dialFresh (k : Kind) (cmd : Report) (pd : Finset ℕ) : Finset ℕ :=
  (freshDialList k cmd pd).toFinset

/-- The dials removed by the retain loop of `handle_dial_event`
(lines 174-183): members of `pressed_dials` with
`cmd[(offset + *dial) as usize] == 0 && !fresh_presses.contains(dial)`.
`HashSet` iteration order is unspecified; modelled in ascending index
order. -/
def dialReleasedList (k : Kind) (cmd : Report) (pd : Finset ℕ) : List ℕ :=
  (pd.filter (fun b =>
    cmd (k.dial_data_offset + b) = 0 ∧ b ∉ dialFresh k cmd pd)).sort (· ≤ ·)

/-- The `pressed_dials` set after one press-mode `handle_dial_event` call:
the members retained by the retain loop, extended with the fresh presses. -/
def dialAfter (k : Kind) (cmd : Report) (pd : Finset ℕ) : Finset ℕ :=
  pd.filter (fun b =>
      ¬(cmd (k.dial_data_offset + b) = 0 ∧ b ∉ dialFresh k cmd pd))
    ∪ dialFresh k cmd pd

/-- `handle_dial_event` (lines 132-187).  `press = cmd[dial_press_flag_index] == 0`;
the `if !press` branch (flag byte NON-zero) emits `Turned` deltas and leaves
the state untouched, otherwise (flag byte zero) press/release edge detection
runs on the dial window.  Event indices are `as u8` casts of the stored
`usize` indices. -/
def handle_dial_event (k : Kind) (cmd : Report) (pd : Finset ℕ) :
    List InputEvent × Finset ℕ :=
  if cmd k.dial_press_flag_index ≠ 0 then
    (dialTurnEvents k cmd, pd)
  else
    (((freshDialList k cmd pd).map (fun p => InputEvent.Dial (toU8 p) .Pressed))
       ++ (dialReleasedList k cmd pd).map (fun b => InputEvent.Dial (toU8 b) .Released),
     dialAfter k cmd pd)

/-- Big-endian two-byte assembly `((high as u16) << 8) + low as u16`
(lines 118, 126-127).  For byte values `≤ 255` the `u16` addition cannot
overflow, so plain arithmetic is exact. -/
def assemble_u16 (high low : ℕ) : ℕ := high * 256 + low

/-- `handle_touchscreen_event` (lines 102-129).  Requires the descriptor's
touch layout; reads the event-type byte (`1` short, `2` long, `3` drag, else
error), assembles the two-byte x and y positions, and for drag the two-byte
end x and the single-byte end y (`cmd[indices.drag_y] as u16`). -/
def handle_touchscreen_event (k : Kind) (cmd : Report) :
    Except Error (List InputEvent) :=
  match k.touch_data_indices with
  | none => Except.error .UnsupportedInput
  | some t =>
    let action? : Except Error TouchAction :=
      if cmd t.event_type_index = 1 then Except.ok .Short
      else if cmd t.event_type_index = 2 then Except.ok .Long
      else if cmd t.event_type_index = 3 then
        Except.ok (.Drag (assemble_u16 (cmd t.drag_x_high) (cmd t.drag_x_low)) (cmd t.drag_y))
      else Except.error .UnsupportedInput
    action?.map (fun action =>
      [InputEvent.Touch (assemble_u16 (cmd t.x_high) (cmd t.x_low))
         (assemble_u16 (cmd t.y_high) (cmd t.y_low)) action])

/-- `handle_input` (lines 83-99), with the out-of-scope blocking
`read_input` replaced by the report argument.  For the Plus the classifier
byte `cmd[1]` dispatches (`0` buttons, `2` touchscreen, `3` dials, anything
else `UnsupportedInput`); every other model always decodes a button report. -/
def handle_input (k : Kind) (cmd : Report) (s : InputManagerState) :
    Except Error (List InputEvent × InputManagerState) :=
  if k.isPlus then
    if cmd 1 = 0 then
      let r := handle_button_event k cmd s.pressed_keys
      Except.ok (r.1, { s with pressed_keys := r.2 })
    else if cmd 1 = 2 then
      (handle_touchscreen_event k cmd).map (fun evs => (evs, s))
    else if cmd 1 = 3 then
      let r := handle_dial_event k cmd s.pressed_dials
      Except.ok (r.1, { s with pressed_dials := r.2 })
    else Except.error .UnsupportedInput
  else
    let r := handle_button_event k cmd s.pressed_keys
    Except.ok (r.1, { s with pressed_keys := r.2 })

/-- A session: a sequence of decode calls on one `InputManager`, with the
emitted events concatenated in order.  A call that returns an error emits no
events and (as in the source, where the error propagates before any state
mutation) leaves the state unchanged. -/
def runSession (k : Kind) : List Report → InputManagerState →
    List InputEvent × InputManagerState
  | [], s => ([], s)
  | cmd :: rest, s =>
    match handle_input k cmd s with
    | .ok (evs, s1) =>
      let r := runSession k rest s1
      (evs ++ r.1, r.2)
    | .error _ => runSession k rest s

/-- Projection of the press/release history of key index `b` out of an event
list: `Button b` events keep their action, everything else is dropped. -/
def keyAct (b : ℕ) : InputEvent → Option ButtonAction
  | .Button i a => if i = b then some a else none
  | _ => none

/-- Projection of the press/release history of dial index `b`: `Dial b`
press/release events keep their action; `Turned` events (which are stateless)
and everything else are dropped. -/
def dialAct (b : ℕ) : InputEvent → Option ButtonAction
  | .Dial i .Pressed => if i = b then some ButtonAction.Pressed else none
  | .Dial i .Released => if i = b then some ButtonAction.Released else none
  | _ => none

/-- The per-call press/release trace of one index, as a function of its
membership in the edge-detection set before (`mb`) and after (`ma`) the
call. -/
def edgeShape (mb ma : Bool) : List ButtonAction :=
  if ma then (if mb then [] else [ButtonAction.Pressed])
  else (if mb then [ButtonAction.Released] else [])

/-- Strict alternation checker: `alt cur l` holds when, starting from
pressed-state `cur`, the trace `l` alternates `Pressed`/`Released`
correctly (a `Pressed` only when not currently pressed, a `Released` only
when currently pressed). -/
def alt : Bool → List ButtonAction → Bool
  | _, [] => true
  | false, .Pressed :: t => alt true t
  | true, .Released :: t => alt false t
  | _, _ => false

/-- The report indices read by one `handle_button_event` call: the key window
`[key_data_offset, key_data_offset + keys)` (press scan, line 196) and
`key_data_offset + b` for every member `b` of `pressed_keys` (retain check,
line 223). -/
def buttonAccessedIndices (k : Kind) (pressed : Finset ℕ) : Finset ℕ :=
  (Finset.range k.keys).image (fun p => k.key_data_offset + p) ∪
    pressed.image (fun b => k.key_data_offset + b)

/-- The report indices read by one `handle_dial_event` call: the flag byte
(line 135), the dial window (lines 139, 160), and — only in press mode —
`dial_data_offset + b` for every member of `pressed_dials` (retain check,
line 175). -/
def dialAccessedIndices (k : Kind) (cmd : Report) (pd : Finset ℕ) : Finset ℕ :=
  insert k.dial_press_flag_index
    ((Finset.range k.dials).image (fun p => k.dial_data_offset + p) ∪
      (if cmd k.dial_press_flag_index ≠ 0 then ∅
       else pd.image (fun b => k.dial_data_offset + b)))

/-- The report indices read by one `handle_touchscreen_event` call: the
event-type byte always; on an unknown type nothing else (early return,
line 121); on a drag additionally the drag fields; on success the x/y
position fields (lines 114-128). -/
def touchAccessedIndices (t : TouchDataIndices) (cmd : Report) : Finset ℕ :=
  insert t.event_type_index
    (if cmd t.event_type_index = 1 ∨ cmd t.event_type_index = 2 then
      {t.x_low, t.x_high, t.y_low, t.y_high}
     else if cmd t.event_type_index = 3 then
      {t.x_low, t.x_high, t.y_low, t.y_high, t.drag_x_low, t.drag_x_high, t.drag_y}
     else ∅)

/-- The report indices read by one `handle_input` call: for the Plus the
classifier byte `cmd[1]` plus the dispatched handler's reads; for every other
model only the button handler's reads (lines 88-98). -/
def inputAccessedIndices (k : Kind) (cmd : Report) (s : InputManagerState) : Finset ℕ :=
  if k.isPlus then
    insert 1
      (if cmd 1 = 0 then buttonAccessedIndices k s.pressed_keys
       else if cmd 1 = 2 then
         (match k.touch_data_indices with
          | none => ∅
          | some t => touchAccessedIndices t cmd)
       else if cmd 1 = 3 then dialAccessedIndices k cmd s.pressed_dials
       else ∅)
  else buttonAccessedIndices k s.pressed_keys

/-- The decoder states reachable in one session: the empty initial state and
everything produced from it by successful decode calls (a failed call leaves
the state untouched, so error steps never leave the reachable set). -/
inductive Reachable (k : Kind) : InputManagerState → Prop where
  | init : Reachable k initialState
  | step : ∀ (cmd : Report) (s : InputManagerState) (evs : List InputEvent)
      (s1 : InputManagerState), Reachable k s →
      handle_input k cmd s = .ok (evs, s1) → Reachable k s1

/-- Modelled from the spec: the concrete per-model descriptor values (the
`Kind` table) are absent from `src/`, so the "supported descriptor" bounds
implied by the spec's fixed 36-byte report and never-panics contract are made
explicit: the key window fits the report; the retain-loop check index
`key_data_offset + buttonIndex` is in bounds for every logical index the
window can produce; and, for a dial/touch capable model, the flag byte, the
dial window and every touch field offset are in bounds. -/
def Kind.InBounds (k : Kind) : Prop :=
  k.key_data_offset + k.keys ≤ 36 ∧
  (∀ p, p < k.keys → k.key_data_offset + buttonIndex k (k.key_data_offset + p) < 36) ∧
  (k.isPlus = true →
    k.dial_press_flag_index < 36 ∧ k.dial_data_offset + k.dials ≤ 36 ∧
    (match k.touch_data_indices with
     | none => True
     | some t =>
       t.event_type_index < 36 ∧ t.x_low < 36 ∧ t.x_high < 36 ∧ t.y_low < 36 ∧
       t.y_high < 36 ∧ t.drag_x_low < 36 ∧ t.drag_x_high < 36 ∧ t.drag_y < 36))

/-- A Plus-like test descriptor used for concrete evaluations: 8 keys at
offset 4 numbered left-to-right with a wrap-around index offset, 4 dials at
offset 5, flag byte 4, and a touch layout. -/
def kTest : Kind :=
  ⟨true, 8, 4, 252, .LeftToRight, 4, 5, 4, some ⟨25, 6, 7, 8, 9, 10, 11, 12⟩⟩

/-- A right-to-left test descriptor with 8 keys (the direction-mapping
example of the spec). -/
def kRtL8 : Kind := ⟨false, 8, 1, 0, .RightToLeft, 0, 0, 0, none⟩

/-- Test descriptor for the dial-mode counterexample: 2 dials at offset 5,
flag byte 4. -/
def kC1 : Kind := ⟨true, 8, 4, 0, .LeftToRight, 2, 5, 4, none⟩

/-- Report with flag byte `cmd[4] = 0` and dial-window byte `cmd[5] = 5`. -/
def cmdC1 : Report := fun i => if i = 5 then 5 else 0

/-- Report with flag byte `cmd[4] = 1` and dial-window byte `cmd[5] = 5`. -/
def cmdC1b : Report := fun i => if i = 5 then 5 else if i = 4 then 1 else 0

/-- One-dial test descriptor for the turn-delta examples: dial window `[5, 6)`,
flag byte 4. -/
def kDial1 : Kind := ⟨true, 8, 4, 0, .LeftToRight, 1, 5, 4, none⟩

/-- A turn-mode report for `kDial1`: flag byte `cmd[4] = 1`, dial byte
`cmd[5] = b`. -/
def turnReport (b : ℕ) : Report := fun i => if i = 5 then b else if i = 4 then 1 else 0

/-- Left-to-right test descriptor with one key at offset 4 and zero index
offset. -/
def kC2 : Kind := ⟨false, 1, 4, 0, .LeftToRight, 0, 0, 0, none⟩

/-- Right-to-left test descriptor with 2 keys at offset 0: exhibits the
retain-loop index mismatch. -/
def kC5 : Kind := ⟨false, 2, 0, 0, .RightToLeft, 0, 0, 0, none⟩

/-- Report asserting only the byte at `kC2`'s window position 0 (index 4). -/
def cmdC2 : Report := singleByteReport 4

/-- Report asserting only the byte at `kC5`'s window position 0 (index 0). -/
def cmdC5 : Report := singleByteReport 0

/-- A report with an unknown classifier byte `cmd[1] = 7`. -/
def cmdC8 : Report := fun i => if i = 1 then 7 else 0

/-- A drag report for `kTest`: event type `3` at byte 25, drag end x bytes
`0x01`/`0x2C` at bytes 11/10. -/
def cmdC9 : Report :=
  fun i => if i = 25 then 3 else if i = 11 then 1 else if i = 10 then 44 else 0

/-- A drag report for `kTest` whose touch y position uses both bytes
(`0x01`/`0x2C` at bytes 9/8, so y = 300) while the drag end y is the single
byte 200 at byte 12. -/
def cmdC10 : Report :=
  fun i => if i = 25 then 3 else if i = 9 then 1 else if i = 8 then 44
    else if i = 12 then 200 else 0

section Helpers

variable {α β : Type*}

lemma filterMap_ite_eq_replicate [DecidableEq α] (l : List α) (b : α) (y : β) :
    l.filterMap (fun x => if x = b then some y else none) =
      List.replicate (l.count b) y := by
  induction l with
  | nil => simp
  | cons x t ih =>
    by_cases hx : x = b
    · subst hx
      simp [List.filterMap_cons, ih, List.count_cons, List.replicate_succ]
    · simp [List.filterMap_cons, hx, ih, List.count_cons, Ne.symm hx]

lemma filterMap_ite_of_nodup [DecidableEq α] (l : List α) (hl : l.Nodup) (b : α) (y : β) :
    l.filterMap (fun x => if x = b then some y else none) =
      if b ∈ l then [y] else [] := by
  rw [filterMap_ite_eq_replicate]
  by_cases hb : b ∈ l
  · rw [List.count_eq_one_of_mem hl hb]
    simp [hb]
  · rw [List.count_eq_zero_of_not_mem hb]
    simp [hb]

lemma filterMap_range_single (n p : ℕ) (hp : p < n) (f : ℕ → Option β)
    (hf : ∀ q, q ≠ p → f q = none) : (List.range n).filterMap f = (f p).toList := by
  induction n with
  | zero => omega
  | succ m ih =>
    rw [List.range_succ, List.filterMap_append]
    rcases Nat.lt_or_ge p m with hpm | hpm
    · rw [ih hpm, List.filterMap_cons, hf m (by omega)]
      simp
    · have hpe : p = m := by omega
      subst hpe
      have h0 : (List.range p).filterMap f = [] := by
        rw [List.filterMap_eq_nil_iff]
        intro a ha
        exact hf a (by simpa using (List.mem_range.mp ha).ne)
      rw [h0, List.filterMap_cons]
      cases h : f p <;> simp [h]

end Helpers

lemma keyAct_press_map (b : ℕ) (l : List ℕ) :
    (l.map (fun x => InputEvent.Button x .Pressed)).filterMap (keyAct b) =
      l.filterMap (fun x => if x = b then some ButtonAction.Pressed else none) := by
  rw [List.filterMap_map]
  rfl

lemma keyAct_release_map (b : ℕ) (l : List ℕ) :
    (l.map (fun x => InputEvent.Button x .Released)).filterMap (keyAct b) =
      l.filterMap (fun x => if x = b then some ButtonAction.Released else none) := by
  rw [List.filterMap_map]
  rfl

lemma dialAct_press_map (b : ℕ) (l : List ℕ) :
    (l.map (fun x => InputEvent.Dial (toU8 x) .Pressed)).filterMap (dialAct b) =
      l.filterMap (fun x => if toU8 x = b then some ButtonAction.Pressed else none) := by
  rw [List.filterMap_map]
  rfl

lemma dialAct_release_map (b : ℕ) (l : List ℕ) :
    (l.map (fun x => InputEvent.Dial (toU8 x) .Released)).filterMap (dialAct b) =
      l.filterMap (fun x => if toU8 x = b then some ButtonAction.Released else none) := by
  rw [List.filterMap_map]
  rfl

lemma dialAct_turn_none (b : ℕ) (k : Kind) (cmd : Report) :
    (dialTurnEvents k cmd).filterMap (dialAct b) = [] := by
  rw [List.filterMap_eq_nil_iff]
  intro e he
  obtain ⟨p, -, hp⟩ := List.mem_filterMap.mp he
  split at hp
  · cases hp
    rfl
  · cases hp

lemma keyAct_dial_events_none (b : ℕ) (k : Kind) (cmd : Report) (pd : Finset ℕ) :
    (handle_dial_event k cmd pd).1.filterMap (keyAct b) = [] := by
  rw [List.filterMap_eq_nil_iff]
  intro e he
  unfold handle_dial_event at he
  split at he
  · obtain ⟨p, -, hp⟩ := List.mem_filterMap.mp he
    split at hp
    · cases hp
      rfl
    · cases hp
  · simp only [List.mem_append, List.mem_map] at he
    rcases he with ⟨x, -, rfl⟩ | ⟨x, -, rfl⟩ <;> rfl

lemma dialAct_button_events_none (b : ℕ) (k : Kind) (cmd : Report) (pressed : Finset ℕ) :
    (handle_button_event k cmd pressed).1.filterMap (dialAct b) = [] := by
  rw [List.filterMap_eq_nil_iff]
  intro e he
  unfold handle_button_event at he
  simp only [List.mem_append, List.mem_map] at he
  rcases he with ⟨x, -, rfl⟩ | ⟨x, -, rfl⟩ <;> rfl

lemma keyAct_touch_events_none (b : ℕ) (k : Kind) (cmd : Report) (evs : List InputEvent)
    (h : handle_touchscreen_event k cmd = .ok evs) :
    evs.filterMap (keyAct b) = [] := by
  unfold handle_touchscreen_event at h
  rcases hk : k.touch_data_indices with - | t <;> rw [hk] at h
  · cases h
  · simp only [Except.map] at h
    split at h <;> cases h
    all_goals rfl

lemma dialAct_touch_events_none (b : ℕ) (k : Kind) (cmd : Report) (evs : List InputEvent)
    (h : handle_touchscreen_event k cmd = .ok evs) :
    evs.filterMap (dialAct b) = [] := by
  unfold handle_touchscreen_event at h
  rcases hk : k.touch_data_indices with - | t <;> rw [hk] at h
  · cases h
  · simp only [Except.map] at h
    split at h <;> cases h
    all_goals rfl

lemma nodup_filterMap_on {α β : Type*} {l : List α} {f : α → Option β}
    (hl : l.Nodup)
    (h : ∀ a ∈ l, ∀ a' ∈ l, ∀ b, f a = some b → f a' = some b → a = a') :
    (l.filterMap f).Nodup := by
  induction l with
  | nil => simp
  | cons x t ih =>
    rw [List.filterMap_cons]
    have hx := List.nodup_cons.mp hl
    cases hfx : f x with
    | none =>
      exact ih hx.2 (fun a ha a' ha' b h1 h2 =>
        h a (List.mem_cons_of_mem x ha) a' (List.mem_cons_of_mem x ha') b h1 h2)
    | some b =>
      rw [List.nodup_cons]
      refine ⟨?_, ih hx.2 (fun a ha a' ha' c h1 h2 =>
        h a (List.mem_cons_of_mem x ha) a' (List.mem_cons_of_mem x ha') c h1 h2)⟩
      intro hb
      obtain ⟨a, ha, hfa⟩ := List.mem_filterMap.mp hb
      have hax : a = x :=
        h a (List.mem_cons_of_mem x ha) x (List.mem_cons_self x t) b hfa hfx
      exact hx.1 (hax ▸ ha)

lemma buttonIndex_RtL (k : Kind) (h : k.key_direction = .RightToLeft) (i : ℕ) :
    buttonIndex k i = toU8 k.keys - toU8 (i - k.key_data_offset) := by
  unfold buttonIndex
  rw [h]

lemma buttonIndex_LtR (k : Kind) (h : k.key_direction = .LeftToRight) (i : ℕ) :
    buttonIndex k i = toU8 (toU8 i + k.key_index_offset) := by
  unfold buttonIndex
  rw [h]

lemma buttonIndex_window_inj (k : Kind) (hk : k.keys ≤ 255) :
    ∀ p q, p < k.keys → q < k.keys →
      buttonIndex k (k.key_data_offset + p) = buttonIndex k (k.key_data_offset + q) →
      p = q := by
  intro p q hp hq h
  cases hdir : k.key_direction
  · rw [buttonIndex_RtL k hdir, buttonIndex_RtL k hdir] at h
    unfold toU8 at h
    omega
  · rw [buttonIndex_LtR k hdir, buttonIndex_LtR k hdir] at h
    unfold toU8 at h
    omega

lemma mem_freshButtonList {k : Kind} {cmd : Report} {pressed : Finset ℕ} {b : ℕ} :
    b ∈ freshButtonList k cmd pressed ↔
      b ∉ pressed ∧ ∃ p, p < k.keys ∧ cmd (k.key_data_offset + p) ≠ 0 ∧
        buttonIndex k (k.key_data_offset + p) = b := by
  unfold freshButtonList
  rw [List.mem_filterMap]
  constructor
  · rintro ⟨p, hp, hsome⟩
    rw [List.mem_range] at hp
    split at hsome
    · rename_i hcond
      cases hsome
      exact ⟨hcond.2, p, hp, hcond.1, rfl⟩
    · cases hsome
  · rintro ⟨hnp, p, hp, hc, hb⟩
    refine ⟨p, List.mem_range.mpr hp, ?_⟩
    rw [if_pos ⟨hc, hb ▸ hnp⟩, hb]

lemma freshButtonList_nodup (k : Kind) (hk : k.keys ≤ 255) (cmd : Report)
    (pressed : Finset ℕ) : (freshButtonList k cmd pressed).Nodup := by
  unfold freshButtonList
  apply nodup_filterMap_on (List.nodup_range _)
  intro p hp q hq b h1 h2
  rw [List.mem_range] at hp hq
  split at h1
  · split at h2
    · have e1 := Option.some.inj h1
      have e2 := Option.some.inj h2
      exact buttonIndex_window_inj k hk p q hp hq (e1.trans e2.symm)
    · cases h2
  · cases h1

lemma mem_freshDialList {k : Kind} {cmd : Report} {pd : Finset ℕ} {p : ℕ} :
    p ∈ freshDialList k cmd pd ↔
      p < k.dials ∧ cmd (k.dial_data_offset + p) = 1 ∧ p ∉ pd := by
  unfold freshDialList
  rw [List.mem_filterMap]
  constructor
  · rintro ⟨q, hq, hsome⟩
    rw [List.mem_range] at hq
    split at hsome
    · cases hsome
      rename_i hcond
      exact ⟨hq, hcond.1, hcond.2⟩
    · cases hsome
  · rintro ⟨hp, hc, hnp⟩
    exact ⟨p, List.mem_range.mpr hp, by rw [if_pos ⟨hc, hnp⟩]⟩

lemma freshDialList_nodup (k : Kind) (cmd : Report) (pd : Finset ℕ) :
    (freshDialList k cmd pd).Nodup := by
  unfold freshDialList
  apply nodup_filterMap_on (List.nodup_range _)
  intro p hp q hq b h1 h2
  split at h1
  · split at h2
    · have e1 := Option.some.inj h1
      have e2 := Option.some.inj h2
      exact e1.trans e2.symm
    · cases h2
  · cases h1

lemma buttonReleasedList_nodup (k : Kind) (cmd : Report) (pressed : Finset ℕ) :
    (buttonReleasedList k cmd pressed).Nodup :=
  Finset.sort_nodup _ _

lemma dialReleasedList_nodup (k : Kind) (cmd : Report) (pd : Finset ℕ) :
    (dialReleasedList k cmd pd).Nodup :=
  Finset.sort_nodup _ _

lemma mem_buttonReleasedList {k : Kind} {cmd : Report} {pressed : Finset ℕ} {b : ℕ} :
    b ∈ buttonReleasedList k cmd pressed ↔
      b ∈ pressed ∧ cmd (k.key_data_offset + b) = 0 ∧ b ∉ buttonFresh k cmd pressed := by
  unfold buttonReleasedList
  rw [Finset.mem_sort, Finset.mem_filter]

lemma mem_dialReleasedList {k : Kind} {cmd : Report} {pd : Finset ℕ} {b : ℕ} :
    b ∈ dialReleasedList k cmd pd ↔
      b ∈ pd ∧ cmd (k.dial_data_offset + b) = 0 ∧ b ∉ dialFresh k cmd pd := by
  unfold dialReleasedList
  rw [Finset.mem_sort, Finset.mem_filter]

lemma mem_buttonAfter {k : Kind} {cmd : Report} {pressed : Finset ℕ} {b : ℕ} :
    b ∈ buttonAfter k cmd pressed ↔
      (b ∈ pressed ∧ ¬(cmd (k.key_data_offset + b) = 0 ∧ b ∉ buttonFresh k cmd pressed))
        ∨ b ∈ buttonFresh k cmd pressed := by
  unfold buttonAfter
  rw [Finset.mem_union, Finset.mem_filter]

lemma mem_dialAfter {k : Kind} {cmd : Report} {pd : Finset ℕ} {b : ℕ} :
    b ∈ dialAfter k cmd pd ↔
      (b ∈ pd ∧ ¬(cmd (k.dial_data_offset + b) = 0 ∧ b ∉ dialFresh k cmd pd))
        ∨ b ∈ dialFresh k cmd pd := by
  unfold dialAfter
  rw [Finset.mem_union, Finset.mem_filter]

/-- Per-call trace of one key index through `handle_button_event`: it is
fully determined by the index's membership in `pressed_keys` before and after
the call (empty on a steady hold or steady absence, one `Pressed` on a fresh
press, one `Released` on a release). -/
lemma button_call_shape (k : Kind) (hk : k.keys ≤ 255) (cmd : Report)
    (pressed : Finset ℕ) (b : ℕ) :
    (handle_button_event k cmd pressed).1.filterMap (keyAct b) =
      edgeShape (decide (b ∈ pressed))
        (decide (b ∈ (handle_button_event k cmd pressed).2)) := by
  have hfst : (handle_button_event k cmd pressed).1 =
      ((freshButtonList k cmd pressed).map (fun x => InputEvent.Button x .Pressed))
        ++ (buttonReleasedList k cmd pressed).map (fun x => InputEvent.Button x .Released) :=
    rfl
  have hsnd : (handle_button_event k cmd pressed).2 = buttonAfter k cmd pressed := rfl
  rw [hfst, hsnd, List.filterMap_append, keyAct_press_map, keyAct_release_map,
    filterMap_ite_of_nodup _ (freshButtonList_nodup k hk cmd pressed),
    filterMap_ite_of_nodup _ (buttonReleasedList_nodup k cmd pressed)]
  by_cases h1 : b ∈ buttonFresh k cmd pressed
  · have h1l : b ∈ freshButtonList k cmd pressed := List.mem_toFinset.mp h1
    have h2 : b ∉ pressed := (mem_freshButtonList.mp h1l).1
    simp [edgeShape, h1l, h2, mem_buttonReleasedList, mem_buttonAfter, h1]
  · have h1l : b ∉ freshButtonList k cmd pressed := fun hc => h1 (List.mem_toFinset.mpr hc)
    by_cases h2 : b ∈ pressed
    · by_cases h3 : cmd (k.key_data_offset + b) = 0
      · simp [edgeShape, h1l, h2, h3, mem_buttonReleasedList, mem_buttonAfter, h1]
      · simp [edgeShape, h1l, h2, h3, mem_buttonReleasedList, mem_buttonAfter, h1]
    · simp [edgeShape, h1l, h2, mem_buttonReleasedList, mem_buttonAfter, h1]

/-- Per-call trace of one dial index through `handle_dial_event`, for states
within the dial range: determined by the before/after membership in
`pressed_dials`; `Turned` events do not contribute. -/
lemma dial_call_shape (k : Kind) (cmd : Report)
    (pd : Finset ℕ) (hpd : pd ⊆ Finset.range k.dials) (hd : k.dials ≤ 255) (b : ℕ) :
    (handle_dial_event k cmd pd).1.filterMap (dialAct b) =
      edgeShape (decide (b ∈ pd))
        (decide (b ∈ (handle_dial_event k cmd pd).2)) := by
  unfold handle_dial_event
  split
  · rw [dialAct_turn_none]
    cases hb : decide (b ∈ pd) <;> simp [edgeShape, hb]
  · simp only
    rw [List.filterMap_append, dialAct_press_map, dialAct_release_map]
    have hfreshid : ∀ x ∈ freshDialList k cmd pd, toU8 x = x := by
      intro x hx
      have := (mem_freshDialList.mp hx).1
      unfold toU8
      omega
    have hrelid : ∀ x ∈ dialReleasedList k cmd pd, toU8 x = x := by
      intro x hx
      have := Finset.mem_range.mp (hpd (mem_dialReleasedList.mp hx).1)
      unfold toU8
      omega
    have hA : (freshDialList k cmd pd).filterMap
          (fun x => if toU8 x = b then some ButtonAction.Pressed else none) =
        (freshDialList k cmd pd).filterMap
          (fun x => if x = b then some ButtonAction.Pressed else none) :=
      List.filterMap_congr (fun x hx => by rw [hfreshid x hx])
    have hB : (dialReleasedList k cmd pd).filterMap
          (fun x => if toU8 x = b then some ButtonAction.Released else none) =
        (dialReleasedList k cmd pd).filterMap
          (fun x => if x = b then some ButtonAction.Released else none) :=
      List.filterMap_congr (fun x hx => by rw [hrelid x hx])
    rw [hA, hB,
      filterMap_ite_of_nodup _ (freshDialList_nodup k cmd pd),
      filterMap_ite_of_nodup _ (dialReleasedList_nodup k cmd pd)]
    by_cases h1 : b ∈ dialFresh k cmd pd
    · have h1l : b ∈ freshDialList k cmd pd := List.mem_toFinset.mp h1
      have h2 : b ∉ pd := (mem_freshDialList.mp h1l).2.2
      simp [edgeShape, h1l, h2, mem_dialReleasedList, mem_dialAfter, h1]
    · have h1l : b ∉ freshDialList k cmd pd := fun hc => h1 (List.mem_toFinset.mpr hc)
      by_cases h2 : b ∈ pd
      · by_cases h3 : cmd (k.dial_data_offset + b) = 0
        · simp [edgeShape, h1l, h2, h3, mem_dialReleasedList, mem_dialAfter, h1]
        · simp [edgeShape, h1l, h2, h3, mem_dialReleasedList, mem_dialAfter, h1]
      · simp [edgeShape, h1l, h2, mem_dialReleasedList, mem_dialAfter, h1]

lemma alt_nil (c : Bool) : alt c [] = true := by
  cases c <;> rfl

lemma edgeShape_same (c : Bool) : edgeShape c c = [] := by
  cases c <;> rfl

lemma alt_edgeShape (cur next : Bool) (rest : List ButtonAction) :
    alt cur (edgeShape cur next ++ rest) = alt next rest := by
  cases cur <;> cases next <;> simp [edgeShape, alt]

/-- Record-update projections of `handle_input` results, spelled out per
branch: trace of one key index through a full decode call. -/
lemma input_call_keys (k : Kind) (hk : k.keys ≤ 255) (cmd : Report)
    (s : InputManagerState) (b : ℕ) {evs : List InputEvent} {s1 : InputManagerState}
    (h : handle_input k cmd s = .ok (evs, s1)) :
    evs.filterMap (keyAct b) =
      edgeShape (decide (b ∈ s.pressed_keys)) (decide (b ∈ s1.pressed_keys)) := by
  unfold handle_input at h
  split at h
  · split_ifs at h
    · obtain ⟨h1, h2⟩ := Prod.mk.inj (Except.ok.inj h)
      subst h1
      subst h2
      exact button_call_shape k hk cmd s.pressed_keys b
    · cases ht : handle_touchscreen_event k cmd with
      | error e =>
        rw [ht] at h
        cases h
      | ok tevs =>
        rw [ht] at h
        obtain ⟨h1, h2⟩ := Prod.mk.inj (Except.ok.inj h)
        subst h1
        subst h2
        rw [keyAct_touch_events_none b k cmd _ ht, edgeShape_same]
    · obtain ⟨h1, h2⟩ := Prod.mk.inj (Except.ok.inj h)
      subst h1
      subst h2
      rw [keyAct_dial_events_none, edgeShape_same]
  · obtain ⟨h1, h2⟩ := Prod.mk.inj (Except.ok.inj h)
    subst h1
    subst h2
    exact button_call_shape k hk cmd s.pressed_keys b

/-- Trace of one dial index through a full decode call, for states whose
`pressed_dials` is within the dial range. -/
lemma input_call_dials (k : Kind) (hd : k.dials ≤ 255) (cmd : Report)
    (s : InputManagerState) (hpd : s.pressed_dials ⊆ Finset.range k.dials) (b : ℕ)
    {evs : List InputEvent} {s1 : InputManagerState}
    (h : handle_input k cmd s = .ok (evs, s1)) :
    evs.filterMap (dialAct b) =
      edgeShape (decide (b ∈ s.pressed_dials)) (decide (b ∈ s1.pressed_dials)) := by
  unfold handle_input at h
  split at h
  · split_ifs at h
    · obtain ⟨h1, h2⟩ := Prod.mk.inj (Except.ok.inj h)
      subst h1
      subst h2
      rw [dialAct_button_events_none, edgeShape_same]
    · cases ht : handle_touchscreen_event k cmd with
      | error e =>
        rw [ht] at h
        cases h
      | ok tevs =>
        rw [ht] at h
        obtain ⟨h1, h2⟩ := Prod.mk.inj (Except.ok.inj h)
        subst h1
        subst h2
        rw [dialAct_touch_events_none b k cmd _ ht, edgeShape_same]
    · obtain ⟨h1, h2⟩ := Prod.mk.inj (Except.ok.inj h)
      subst h1
      subst h2
      exact dial_call_shape k cmd s.pressed_dials hpd hd b
  · obtain ⟨h1, h2⟩ := Prod.mk.inj (Except.ok.inj h)
    subst h1
    subst h2
    rw [dialAct_button_events_none, edgeShape_same]

lemma dialAfter_subset_range (k : Kind) (cmd : Report) (pd : Finset ℕ)
    (hpd : pd ⊆ Finset.range k.dials) :
    (handle_dial_event k cmd pd).2 ⊆ Finset.range k.dials := by
  unfold handle_dial_event
  split
  · exact hpd
  · intro x hx
    rcases Finset.mem_union.mp hx with hx | hx
    · exact hpd (Finset.mem_filter.mp hx).1
    · exact Finset.mem_range.mpr (mem_freshDialList.mp (List.mem_toFinset.mp hx)).1

/-- Every decode call keeps `pressed_dials` within the dial range. -/
lemma input_preserves_dial_range (k : Kind) (cmd : Report) (s : InputManagerState)
    {evs : List InputEvent} {s1 : InputManagerState}
    (h : handle_input k cmd s = .ok (evs, s1))
    (hpd : s.pressed_dials ⊆ Finset.range k.dials) :
    s1.pressed_dials ⊆ Finset.range k.dials := by
  unfold handle_input at h
  split at h
  · split_ifs at h
    · obtain ⟨h1, h2⟩ := Prod.mk.inj (Except.ok.inj h)
      subst h2
      exact hpd
    · cases ht : handle_touchscreen_event k cmd with
      | error e =>
        rw [ht] at h
        cases h
      | ok tevs =>
        rw [ht] at h
        obtain ⟨h1, h2⟩ := Prod.mk.inj (Except.ok.inj h)
        subst h2
        exact hpd
    · obtain ⟨h1, h2⟩ := Prod.mk.inj (Except.ok.inj h)
      subst h2
      exact dialAfter_subset_range k cmd s.pressed_dials hpd
  · obtain ⟨h1, h2⟩ := Prod.mk.inj (Except.ok.inj h)
    subst h2
    exact hpd

lemma session_alt_keys (k : Kind) (hk : k.keys ≤ 255) (b : ℕ) :
    ∀ (cmds : List Report) (s : InputManagerState),
      alt (decide (b ∈ s.pressed_keys))
        ((runSession k cmds s).1.filterMap (keyAct b)) = true := by
  intro cmds
  induction cmds with
  | nil =>
    intro s
    simp only [runSession, List.filterMap_nil]
    exact alt_nil _
  | cons c cs ih =>
    intro s
    cases h : handle_input k c s with
    | error e =>
      simp only [runSession, h]
      exact ih s
    | ok r =>
      obtain ⟨evs, s1⟩ := r
      simp only [runSession, h]
      rw [List.filterMap_append, input_call_keys k hk c s b h, alt_edgeShape]
      exact ih s1

lemma session_alt_dials (k : Kind) (hd : k.dials ≤ 255) (b : ℕ) :
    ∀ (cmds : List Report) (s : InputManagerState),
      s.pressed_dials ⊆ Finset.range k.dials →
      alt (decide (b ∈ s.pressed_dials))
        ((runSession k cmds s).1.filterMap (dialAct b)) = true := by
  intro cmds
  induction cmds with
  | nil =>
    intro s _
    simp only [runSession, List.filterMap_nil]
    exact alt_nil _
  | cons c cs ih =>
    intro s hpd
    cases h : handle_input k c s with
    | error e =>
      simp only [runSession, h]
      exact ih s hpd
    | ok r =>
      obtain ⟨evs, s1⟩ := r
      simp only [runSession, h]
      rw [List.filterMap_append, input_call_dials k hd c s hpd b h, alt_edgeShape]
      exact ih s1 (input_preserves_dial_range k c s h hpd)

lemma count_button_filterMap (b : ℕ) (a : ButtonAction) (evs : List InputEvent) :
    evs.count (InputEvent.Button b a) = (evs.filterMap (keyAct b)).count a := by
  induction evs with
  | nil => rfl
  | cons e t ih =>
    rw [List.filterMap_cons]
    cases e with
    | Button i a2 =>
      by_cases hib : i = b
      · subst hib
        simp [keyAct, List.count_cons, ih, InputEvent.Button.injEq]
      · simp [keyAct, hib, List.count_cons, ih, InputEvent.Button.injEq]
    | Dial i a2 => simp [keyAct, List.count_cons, ih]
    | Touch x y a2 => simp [keyAct, List.count_cons, ih]

lemma freshButtonList_zero (k : Kind) (q : Finset ℕ) :
    freshButtonList k zeroReport q = [] := by
  unfold freshButtonList zeroReport
  simp

lemma buttonAfter_zero (k : Kind) (q : Finset ℕ) :
    buttonAfter k zeroReport q = ∅ := by
  unfold buttonAfter buttonFresh
  rw [freshButtonList_zero]
  simp [zeroReport]

lemma filterMap_ite_eq_filter_map {α β : Type*} (l : List α) (P : α → Prop)
    [DecidablePred P] (f : α → β) :
    l.filterMap (fun a => if P a then some (f a) else none) =
      (l.filter (fun a => decide (P a))).map f := by
  induction l with
  | nil => rfl
  | cons x t ih =>
    by_cases hx : P x <;> simp [List.filterMap_cons, List.filter_cons, hx, ih]

lemma dialTurnEvents_eq_filter (k : Kind) (cmd : Report) :
    dialTurnEvents k cmd =
      ((List.range k.dials).filter
          (fun p => decide (cmd (k.dial_data_offset + p) ≠ 0))).map
        (fun p => InputEvent.Dial (toU8 p)
          (.Turned (dialDelta (cmd (k.dial_data_offset + p))))) := by
  unfold dialTurnEvents
  exact filterMap_ite_eq_filter_map _ _ _

lemma freshDialList_eq_filter (k : Kind) (cmd : Report) (pd : Finset ℕ) :
    freshDialList k cmd pd =
      (List.range k.dials).filter
        (fun p => decide (cmd (k.dial_data_offset + p) = 1 ∧ p ∉ pd)) := by
  unfold freshDialList
  rw [filterMap_ite_eq_filter_map _ _ (fun p => p)]
  simp

/-- In press mode a released dial's byte is `0`, so it can never be in the
fresh set (whose members have byte `1`): the retain condition's
`!fresh_presses.contains` conjunct is redundant. -/
lemma dialReleasedList_eq (k : Kind) (cmd : Report) (pd : Finset ℕ) :
    dialReleasedList k cmd pd =
      (pd.filter (fun b => cmd (k.dial_data_offset + b) = 0)).sort (· ≤ ·) := by
  unfold dialReleasedList
  congr 1
  apply Finset.filter_congr
  intro x hx
  constructor
  · rintro ⟨h0, -⟩
    exact h0
  · intro h0
    refine ⟨h0, fun hf => ?_⟩
    have := (mem_freshDialList.mp (List.mem_toFinset.mp hf)).2.1
    omega

lemma dialAfter_eq (k : Kind) (cmd : Report) (pd : Finset ℕ) :
    dialAfter k cmd pd =
      pd.filter (fun b => cmd (k.dial_data_offset + b) ≠ 0) ∪ dialFresh k cmd pd := by
  unfold dialAfter
  ext x
  simp only [Finset.mem_union, Finset.mem_filter]
  by_cases hf : x ∈ dialFresh k cmd pd
  · simp [hf]
  · constructor
    · rintro (⟨hx, hnot⟩ | hf2)
      · exact Or.inl ⟨hx, fun h0 => hnot ⟨h0, hf⟩⟩
      · exact Or.inr hf2
    · rintro (⟨hx, h0⟩ | hf2)
      · exact Or.inl ⟨hx, fun hc => h0 hc.1⟩
      · exact Or.inr hf2

/-- Each successful decode call either runs the button handler (keys updated,
dials untouched) or not (keys untouched), and likewise for the dial state. -/
lemma input_state_cases (k : Kind) (cmd : Report) (s : InputManagerState)
    {evs : List InputEvent} {s1 : InputManagerState}
    (h : handle_input k cmd s = .ok (evs, s1)) :
    (s1.pressed_keys = buttonAfter k cmd s.pressed_keys ∨
      s1.pressed_keys = s.pressed_keys) ∧
    (s1.pressed_dials = (handle_dial_event k cmd s.pressed_dials).2 ∨
      s1.pressed_dials = s.pressed_dials) := by
  unfold handle_input at h
  split at h
  · split_ifs at h
    · obtain ⟨h1, h2⟩ := Prod.mk.inj (Except.ok.inj h)
      subst h2
      exact ⟨Or.inl rfl, Or.inr rfl⟩
    · cases ht : handle_touchscreen_event k cmd with
      | error e =>
        rw [ht] at h
        cases h
      | ok tevs =>
        rw [ht] at h
        obtain ⟨h1, h2⟩ := Prod.mk.inj (Except.ok.inj h)
        subst h2
        exact ⟨Or.inr rfl, Or.inr rfl⟩
    · obtain ⟨h1, h2⟩ := Prod.mk.inj (Except.ok.inj h)
      subst h2
      exact ⟨Or.inr rfl, Or.inl rfl⟩
  · obtain ⟨h1, h2⟩ := Prod.mk.inj (Except.ok.inj h)
    subst h2
    exact ⟨Or.inl rfl, Or.inr rfl⟩

/-- Session invariant: every reachable `pressed_keys` member is a logical
index that some key-window position can produce, and every reachable
`pressed_dials` member is below the dial count. -/
lemma reachable_invariant (k : Kind) (s : InputManagerState) (hs : Reachable k s) :
    (∀ b ∈ s.pressed_keys,
      ∃ p, p < k.keys ∧ buttonIndex k (k.key_data_offset + p) = b) ∧
    s.pressed_dials ⊆ Finset.range k.dials := by
  induction hs with
  | init =>
    constructor
    · intro b hb
      simp [initialState] at hb
    · simp [initialState]
  | step cmd s evs s1 hr h ih =>
    obtain ⟨hkcase, hdcase⟩ := input_state_cases k cmd s h
    constructor
    · intro b hb
      rcases hkcase with hk1 | hk1
      · rw [hk1] at hb
        rcases mem_buttonAfter.mp hb with ⟨hp1, -⟩ | hf
        · exact ih.1 b hp1
        · obtain ⟨-, p, hp, hc, hbi⟩ := mem_freshButtonList.mp (List.mem_toFinset.mp hf)
          exact ⟨p, hp, hbi⟩
      · rw [hk1] at hb
        exact ih.1 b hb
    · rcases hdcase with hd1 | hd1
      · exact fun x hx =>
          dialAfter_subset_range k cmd s.pressed_dials ih.2 (hd1 ▸ hx)
      · rw [hd1]
        exact ih.2

lemma dialDelta_low (b : ℕ) (h : b ≤ 127) : dialDelta b = (b : ℤ) := by
  unfold dialDelta
  rw [if_neg (by omega)]

lemma dialDelta_high (b : ℕ) (h1 : 128 ≤ b) (h2 : b ≤ 255) :
    dialDelta b = -((255 : ℤ) - (b : ℤ)) - 1 := by
  unfold dialDelta
  rw [if_pos (by omega), Nat.cast_sub (by omega)]
  norm_num

/-- Claim C7: the dial turn-delta decoding maps bytes 1-127 to themselves,
bytes 128-255 to `-(255 - b) - 1`, covers the full signed range [-128, 127],
sends bytes 1, 255, 128, 127 to deltas 1, -1, -128, 127, and in turn mode
emits exactly `Turned (dialDelta b)` for a report with single dial byte
`b ≠ 0`. -/
theorem C7_turn_delta_decoding :
    (∀ b : ℕ, 1 ≤ b → b ≤ 127 → dialDelta b = (b : ℤ)) ∧
    (∀ b : ℕ, 128 ≤ b → b ≤ 255 → dialDelta b = -((255 : ℤ) - (b : ℤ)) - 1) ∧
    (∀ z : ℤ, -128 ≤ z → z ≤ 127 → ∃ b : ℕ, b ≤ 255 ∧ dialDelta b = z) ∧
    (dialDelta 1 = 1 ∧ dialDelta 255 = -1 ∧ dialDelta 128 = -128 ∧ dialDelta 127 = 127) ∧
    (∀ b : ℕ, b ≠ 0 →
      (handle_dial_event kDial1 (turnReport b) ∅).1 =
        [InputEvent.Dial 0 (.Turned (dialDelta b))]) := by
  refine ⟨fun b h1 h2 => dialDelta_low b h2, fun b h1 h2 => dialDelta_high b h1 h2,
    ?_, by decide, ?_⟩
  · intro z h1 h2
    rcases le_or_lt 0 z with hz | hz
    · refine ⟨z.toNat, by omega, ?_⟩
      rw [dialDelta_low _ (by omega)]
      omega
    · refine ⟨(z + 256).toNat, by omega, ?_⟩
      rw [dialDelta_high _ (by omega) (by omega)]
      omega
  · intro b hb
    simp [handle_dial_event, dialTurnEvents, kDial1, turnReport, toU8, hb,
      show (List.range 1) = [0] from rfl]

/-- Claim C7 witness: the general clauses evaluated at bytes 200 and 3. -/
theorem C7_turn_delta_decoding_witness :
    dialDelta 200 = -((255 : ℤ) - (200 : ℤ)) - 1 ∧
    (handle_dial_event kDial1 (turnReport 3) ∅).1 =
      [InputEvent.Dial 0 (.Turned (dialDelta 3))] :=
  ⟨C7_turn_delta_decoding.2.1 200 (by norm_num) (by norm_num),
   C7_turn_delta_decoding.2.2.2.2 3 (by norm_num)⟩

/-- Claim C8: for a dial/touch capable (Plus) descriptor the classifier byte
`cmd[1]` dispatches — 0 to the button decoder, 2 to the touchscreen decoder,
3 to the dial decoder, anything else to the `UnsupportedInput` error (never a
panic); for any other descriptor every report goes to the button decoder
regardless of `cmd[1]`. -/
theorem C8_classifier_dispatch (k : Kind) (cmd : Report) (s : InputManagerState) :
    (k.isPlus = true →
      (cmd 1 = 0 → handle_input k cmd s =
        .ok ((handle_button_event k cmd s.pressed_keys).1,
             { s with pressed_keys := (handle_button_event k cmd s.pressed_keys).2 })) ∧
      (cmd 1 = 2 → handle_input k cmd s =
        (handle_touchscreen_event k cmd).map (fun evs => (evs, s))) ∧
      (cmd 1 = 3 → handle_input k cmd s =
        .ok ((handle_dial_event k cmd s.pressed_dials).1,
             { s with pressed_dials := (handle_dial_event k cmd s.pressed_dials).2 })) ∧
      (cmd 1 ≠ 0 → cmd 1 ≠ 2 → cmd 1 ≠ 3 →
        handle_input k cmd s = .error .UnsupportedInput)) ∧
    (k.isPlus = false →
      handle_input k cmd s =
        .ok ((handle_button_event k cmd s.pressed_keys).1,
             { s with pressed_keys := (handle_button_event k cmd s.pressed_keys).2 })) := by
  constructor
  · intro hp
    refine ⟨?_, ?_, ?_, ?_⟩
    · intro h0
      unfold handle_input
      rw [hp]
      simp [h0]
    · intro h2
      unfold handle_input
      rw [hp]
      simp [h2]
    · intro h3
      unfold handle_input
      rw [hp]
      simp [h3]
    · intro h0 h2 h3
      unfold handle_input
      rw [hp]
      simp [h0, h2, h3]
  · intro hp
    unfold handle_input
    rw [hp]
    simp

/-- Claim C8 witness: a Plus report with unknown classifier byte 7 yields the
error. -/
theorem C8_classifier_dispatch_witness :
    handle_input kTest cmdC8 initialState = .error .UnsupportedInput :=
  ((C8_classifier_dispatch kTest cmdC8 initialState).1 (by decide)).2.2.2
    (by decide) (by decide) (by decide)

/-- Claim C9: with a touch layout present, event-type byte 1 decodes to
`Short`, 2 to `Long`, 3 to `Drag` with end x assembled big-endian
(`0x01`/`0x2C` gives 300), any other value errors, success always produces
exactly one `Touch` event, and a Plus touch call leaves the decoder state
unchanged. -/
theorem C9_touchscreen_decoding (k : Kind) (t : TouchDataIndices) (cmd : Report)
    (ht : k.touch_data_indices = some t) :
    (cmd t.event_type_index = 1 → handle_touchscreen_event k cmd =
      .ok [InputEvent.Touch (assemble_u16 (cmd t.x_high) (cmd t.x_low))
            (assemble_u16 (cmd t.y_high) (cmd t.y_low)) .Short]) ∧
    (cmd t.event_type_index = 2 → handle_touchscreen_event k cmd =
      .ok [InputEvent.Touch (assemble_u16 (cmd t.x_high) (cmd t.x_low))
            (assemble_u16 (cmd t.y_high) (cmd t.y_low)) .Long]) ∧
    (cmd t.event_type_index = 3 → handle_touchscreen_event k cmd =
      .ok [InputEvent.Touch (assemble_u16 (cmd t.x_high) (cmd t.x_low))
            (assemble_u16 (cmd t.y_high) (cmd t.y_low))
            (.Drag (assemble_u16 (cmd t.drag_x_high) (cmd t.drag_x_low))
              (cmd t.drag_y))]) ∧
    (cmd t.event_type_index ≠ 1 → cmd t.event_type_index ≠ 2 →
      cmd t.event_type_index ≠ 3 →
      handle_touchscreen_event k cmd = .error .UnsupportedInput) ∧
    (∀ evs, handle_touchscreen_event k cmd = .ok evs → evs.length = 1) ∧
    assemble_u16 1 44 = 300 ∧
    (k.isPlus = true → ∀ (s : InputManagerState) evs s1,
      handle_input k cmd s = .ok (evs, s1) → cmd 1 = 2 → s1 = s) := by
  refine ⟨?_, ?_, ?_, ?_, ?_, by decide, ?_⟩
  · intro h1
    unfold handle_touchscreen_event
    rw [ht]
    simp [h1, Except.map]
  · intro h2
    unfold handle_touchscreen_event
    rw [ht]
    simp [h2, Except.map]
  · intro h3
    unfold handle_touchscreen_event
    rw [ht]
    simp [h3, Except.map]
  · intro h1 h2 h3
    unfold handle_touchscreen_event
    rw [ht]
    simp [h1, h2, h3, Except.map]
  · intro evs h
    unfold handle_touchscreen_event at h
    rw [ht] at h
    simp only [Except.map] at h
    split_ifs at h <;> cases h <;> rfl
  · intro hp s evs s1 h h2
    unfold handle_input at h
    rw [hp] at h
    rw [h2] at h
    simp only [if_pos, if_neg] at h
    cases htv : handle_touchscreen_event k cmd with
    | error e =>
      rw [htv] at h
      cases h
    | ok tevs =>
      rw [htv] at h
      simp only [Except.map] at h
      exact (Prod.mk.inj (Except.ok.inj h)).2.symm

/-- Claim C9 witness: they drag report `cmdC9` decodes on `kTest` to a single
drag touch event with end x = 300. -/
theorem C9_touchscreen_decoding_witness :
    handle_touchscreen_event kTest cmdC9 =
      .ok [InputEvent.Touch 0 0 (.Drag 300 0)] := by
  rw [(C9_touchscreen_decoding kTest ⟨25, 6, 7, 8, 9, 10, 11, 12⟩ cmdC9 rfl).2.2.1
    (by decide)]
  rfl

/-- Claim C10: in a successfully decoded drag event the drag end y comes from
a single report byte (hence never exceeds 255), while the touch y position of
the same event is assembled from two bytes as a full 16-bit value that
exceeds 255 exactly when its high byte is non-zero. -/
theorem C10_drag_y_asymmetry (k : Kind) (t : TouchDataIndices) (cmd : Report)
    (hb : ∀ i, cmd i ≤ 255) (ht : k.touch_data_indices = some t)
    (h3 : cmd t.event_type_index = 3) :
    handle_touchscreen_event k cmd =
      .ok [InputEvent.Touch (assemble_u16 (cmd t.x_high) (cmd t.x_low))
            (assemble_u16 (cmd t.y_high) (cmd t.y_low))
            (.Drag (assemble_u16 (cmd t.drag_x_high) (cmd t.drag_x_low))
              (cmd t.drag_y))] ∧
    cmd t.drag_y ≤ 255 ∧
    assemble_u16 (cmd t.y_high) (cmd t.y_low) ≤ 65535 ∧
    (255 < assemble_u16 (cmd t.y_high) (cmd t.y_low) ↔ 1 ≤ cmd t.y_high) := by
  refine ⟨(C9_touchscreen_decoding k t cmd ht).2.2.1 h3, hb t.drag_y, ?_, ?_⟩
  · have hy := hb t.y_high
    have hl := hb t.y_low
    unfold assemble_u16
    omega
  · have hl := hb t.y_low
    unfold assemble_u16
    omega

/-- Claim C10 witness: on report `cmdC10` the touch y is 300 (two bytes)
while the drag end y byte is 200 (always at most 255). -/
theorem C10_drag_y_asymmetry_witness :
    cmdC10 12 ≤ 255 ∧ 255 < assemble_u16 (cmdC10 9) (cmdC10 8) := by
  have h := C10_drag_y_asymmetry kTest ⟨25, 6, 7, 8, 9, 10, 11, 12⟩ cmdC10
    (fun i => by unfold cmdC10; split_ifs <;> norm_num) rfl (by decide)
  exact ⟨h.2.1, h.2.2.2.mpr (by decide)⟩

lemma buttonReleasedList_of_empty (k : Kind) (cmd : Report) :
    buttonReleasedList k cmd ∅ = [] := by
  unfold buttonReleasedList
  rw [Finset.filter_empty, Finset.sort_empty]

lemma dialReleasedList_of_empty (k : Kind) (cmd : Report) :
    dialReleasedList k cmd ∅ = [] := by
  unfold dialReleasedList
  rw [Finset.filter_empty, Finset.sort_empty]

/-- Claim C1 counterexample: the flag polarity is the opposite of the claim.
With the flag byte ZERO and a non-zero (non-1) dial-window byte the decoder
emits no event at all (press-mode edge detection), not a `Turned` delta per
non-zero byte; with the flag byte NON-zero it emits the `Turned` deltas the
claim reserves for the zero flag. -/
theorem C1_flag_polarity_counterexample :
    cmdC1 kC1.dial_press_flag_index = 0 ∧
    cmdC1 (kC1.dial_data_offset + 0) = 5 ∧
    (handle_dial_event kC1 cmdC1 ∅).1 = [] ∧
    cmdC1b kC1.dial_press_flag_index ≠ 0 ∧
    (handle_dial_event kC1 cmdC1b ∅).1 = [InputEvent.Dial 0 (.Turned 5)] := by
  refine ⟨by decide, by decide, ?_, by decide, ?_⟩
  · show ((freshDialList kC1 cmdC1 ∅).map (fun p => InputEvent.Dial (toU8 p) .Pressed))
        ++ (dialReleasedList kC1 cmdC1 ∅).map
          (fun b => InputEvent.Dial (toU8 b) .Released) = []
    rw [show freshDialList kC1 cmdC1 ∅ = [] from by decide, dialReleasedList_of_empty]
    rfl
  · show dialTurnEvents kC1 cmdC1b = [InputEvent.Dial 0 (.Turned 5)]
    decide

/-- Claim C1 (amended): if the dial-press flag byte is NON-zero the decoder
is in turn mode — it emits one `Turned (dialDelta b)` event per non-zero
window byte `b`, in window order, and mutates `pressed_dials` not at all; if
the flag byte is ZERO it is in press mode — it emits `Pressed` for each
window byte equal to 1 whose index is not already in `pressed_dials`
followed by `Released` for each member of `pressed_dials` whose window byte
is now 0, and the new `pressed_dials` keeps exactly the members with
non-zero window byte plus the fresh presses. -/
theorem C1_dial_flag_modes (k : Kind) (cmd : Report) (pd : Finset ℕ) :
    (cmd k.dial_press_flag_index ≠ 0 →
      (handle_dial_event k cmd pd).2 = pd ∧
      (handle_dial_event k cmd pd).1 =
        ((List.range k.dials).filter
            (fun p => decide (cmd (k.dial_data_offset + p) ≠ 0))).map
          (fun p => InputEvent.Dial (toU8 p)
            (.Turned (dialDelta (cmd (k.dial_data_offset + p)))))) ∧
    (cmd k.dial_press_flag_index = 0 →
      (handle_dial_event k cmd pd).1 =
        ((List.range k.dials).filter
            (fun p => decide (cmd (k.dial_data_offset + p) = 1 ∧ p ∉ pd))).map
          (fun p => InputEvent.Dial (toU8 p) .Pressed) ++
        ((pd.filter (fun b => cmd (k.dial_data_offset + b) = 0)).sort (· ≤ ·)).map
          (fun b => InputEvent.Dial (toU8 b) .Released) ∧
      (handle_dial_event k cmd pd).2 =
        pd.filter (fun b => cmd (k.dial_data_offset + b) ≠ 0) ∪ dialFresh k cmd pd) := by
  constructor
  · intro h
    unfold handle_dial_event
    rw [if_pos h]
    exact ⟨rfl, dialTurnEvents_eq_filter k cmd⟩
  · intro h
    unfold handle_dial_event
    rw [if_neg (by simp [h])]
    refine ⟨?_, dialAfter_eq k cmd pd⟩
    rw [show ((((freshDialList k cmd pd).map (fun p => InputEvent.Dial (toU8 p) .Pressed))
        ++ (dialReleasedList k cmd pd).map (fun b => InputEvent.Dial (toU8 b) .Released),
        dialAfter k cmd pd) :
          List InputEvent × Finset ℕ).1 =
        ((freshDialList k cmd pd).map (fun p => InputEvent.Dial (toU8 p) .Pressed))
          ++ (dialReleasedList k cmd pd).map
            (fun b => InputEvent.Dial (toU8 b) .Released) from rfl,
      freshDialList_eq_filter, dialReleasedList_eq]

/-- Claim C1 witness: the amended press-mode clause evaluated on `cmdC1`
(flag byte 0, window byte 5): no fresh presses, no releases, state stays
empty. -/
theorem C1_dial_flag_modes_witness :
    (handle_dial_event kC1 cmdC1 ∅).2 =
      Finset.filter (fun b => cmdC1 (kC1.dial_data_offset + b) ≠ 0) ∅ ∪
        dialFresh kC1 cmdC1 ∅ :=
  (((C1_dial_flag_modes kC1 cmdC1 ∅).2 (by decide)).2)

/-- Claim C2 counterexample: for a LeftToRight descriptor with
`key_index_offset = 0` and `key_data_offset = 4`, the asserted byte at window
position 0 is reported with logical key index 4 — the absolute report index
`i` plus the offset field — not `(i − offset) + key_index_offset = 0` as the
claim states. -/
theorem C2_key_index_counterexample :
    kC2.key_direction = .LeftToRight ∧ kC2.key_index_offset = 0 ∧
    cmdC2 kC2.key_data_offset ≠ 0 ∧
    (handle_button_event kC2 cmdC2 ∅).1 = [InputEvent.Button 4 .Pressed] ∧
    (handle_button_event kC2 cmdC2 ∅).1 ≠ [InputEvent.Button 0 .Pressed] := by
  have h4 : (handle_button_event kC2 cmdC2 ∅).1 = [InputEvent.Button 4 .Pressed] := by
    show ((freshButtonList kC2 cmdC2 ∅).map (fun b => InputEvent.Button b .Pressed))
        ++ (buttonReleasedList kC2 cmdC2 ∅).map
          (fun b => InputEvent.Button b .Released) = [InputEvent.Button 4 .Pressed]
    rw [show freshButtonList kC2 cmdC2 ∅ = [4] from by decide,
      buttonReleasedList_of_empty]
    rfl
  exact ⟨rfl, rfl, by decide, h4, by rw [h4]; decide⟩

/-- Claim C2 (amended): for window position `p`, `RightToLeft` maps to
`keys − p` (so position 0 maps to 8 when `keys = 8`), while `LeftToRight`
maps to `(i + key_index_offset) mod 256` with `i` the ABSOLUTE report index
`key_data_offset + p` (so position 0 maps to 0 for `key_index_offset = 0`
only when also `key_data_offset = 0`); the decoder emits `Pressed` with
exactly that index for an asserted, not-yet-pressed window byte. -/
theorem C2_key_index_mapping (k : Kind) (hk : k.keys ≤ 255) (cmd : Report)
    (pressed : Finset ℕ) (p : ℕ) (hp : p < k.keys) :
    (k.key_direction = .RightToLeft →
      buttonIndex k (k.key_data_offset + p) = k.keys - p) ∧
    (k.key_direction = .LeftToRight →
      buttonIndex k (k.key_data_offset + p) =
        (k.key_data_offset + p + k.key_index_offset) % 256) ∧
    (k.key_direction = .RightToLeft → k.keys = 8 →
      buttonIndex k (k.key_data_offset + 0) = 8) ∧
    (k.key_direction = .LeftToRight → k.key_index_offset = 0 →
      k.key_data_offset = 0 → buttonIndex k (k.key_data_offset + 0) = 0) ∧
    (cmd (k.key_data_offset + p) ≠ 0 →
      buttonIndex k (k.key_data_offset + p) ∉ pressed →
      InputEvent.Button (buttonIndex k (k.key_data_offset + p)) .Pressed ∈
        (handle_button_event k cmd pressed).1) := by
  refine ⟨?_, ?_, ?_, ?_, ?_⟩
  · intro hdir
    rw [buttonIndex_RtL k hdir]
    unfold toU8
    omega
  · intro hdir
    rw [buttonIndex_LtR k hdir]
    unfold toU8
    omega
  · intro hdir hk8
    rw [buttonIndex_RtL k hdir]
    unfold toU8
    omega
  · intro hdir h0 hoff
    rw [buttonIndex_LtR k hdir]
    unfold toU8
    omega
  · intro hne hnm
    have hmem : buttonIndex k (k.key_data_offset + p) ∈ freshButtonList k cmd pressed :=
      mem_freshButtonList.mpr ⟨hnm, p, hp, hne, rfl⟩
    exact List.mem_append.mpr (Or.inl (List.mem_map.mpr ⟨_, hmem, rfl⟩))

/-- Claim C2 witness: the RightToLeft clause at `keys = 8`, window
position 0. -/
theorem C2_key_index_mapping_witness :
    buttonIndex kRtL8 (kRtL8.key_data_offset + 0) = 8 :=
  (C2_key_index_mapping kRtL8 (by decide) zeroReport ∅ 0 (by decide)).2.2.1
    rfl rfl

/-- Claim C3: for every descriptor (u8 key count), window position `p` and
state not containing that key's logical index `b`, decoding a report with
exactly that window byte asserted and then the all-zero report yields exactly
one `Pressed` for `b` (and no `Released`) from the first call, exactly one
`Released` for `b` (and no `Pressed`) from the second, after which `b` is
absent from `pressed_keys`. -/
theorem C3_press_release_pairing (k : Kind) (hk : k.keys ≤ 255)
    (pressed : Finset ℕ) (p : ℕ) (hp : p < k.keys)
    (hb : buttonIndex k (k.key_data_offset + p) ∉ pressed) :
    ((handle_button_event k (singleByteReport (k.key_data_offset + p)) pressed).1.count
        (InputEvent.Button (buttonIndex k (k.key_data_offset + p)) .Pressed) = 1 ∧
      (handle_button_event k (singleByteReport (k.key_data_offset + p)) pressed).1.count
        (InputEvent.Button (buttonIndex k (k.key_data_offset + p)) .Released) = 0) ∧
    ((handle_button_event k zeroReport
        (handle_button_event k (singleByteReport (k.key_data_offset + p)) pressed).2).1.count
        (InputEvent.Button (buttonIndex k (k.key_data_offset + p)) .Released) = 1 ∧
      (handle_button_event k zeroReport
        (handle_button_event k (singleByteReport (k.key_data_offset + p)) pressed).2).1.count
        (InputEvent.Button (buttonIndex k (k.key_data_offset + p)) .Pressed) = 0) ∧
    buttonIndex k (k.key_data_offset + p) ∉
      (handle_button_event k zeroReport
        (handle_button_event k (singleByteReport (k.key_data_offset + p)) pressed).2).2 := by
  set b := buttonIndex k (k.key_data_offset + p) with hbdef
  set cmd1 := singleByteReport (k.key_data_offset + p) with hcmd1
  have hmem1 : b ∈ freshButtonList k cmd1 pressed :=
    mem_freshButtonList.mpr ⟨hb, p, hp, by simp [hcmd1, singleByteReport], rfl⟩
  have hafter1 : b ∈ (handle_button_event k cmd1 pressed).2 :=
    mem_buttonAfter.mpr (Or.inr (List.mem_toFinset.mpr hmem1))
  have hshape1 := button_call_shape k hk cmd1 pressed b
  rw [decide_eq_false hb, decide_eq_true hafter1] at hshape1
  have hafter2 : (handle_button_event k zeroReport
      (handle_button_event k cmd1 pressed).2).2 = ∅ :=
    buttonAfter_zero k (handle_button_event k cmd1 pressed).2
  have hnot2 : b ∉ (handle_button_event k zeroReport
      (handle_button_event k cmd1 pressed).2).2 := by
    rw [hafter2]
    exact Finset.not_mem_empty b
  have hshape2 := button_call_shape k hk zeroReport
    (handle_button_event k cmd1 pressed).2 b
  rw [decide_eq_true hafter1, decide_eq_false hnot2] at hshape2
  refine ⟨⟨?_, ?_⟩, ⟨?_, ?_⟩, hnot2⟩
  · rw [count_button_filterMap, hshape1]
    rfl
  · rw [count_button_filterMap, hshape1]
    rfl
  · rw [count_button_filterMap, hshape2]
    rfl
  · rw [count_button_filterMap, hshape2]
    rfl

/-- Claim C3 witness: `kTest`, window position 0, empty state. -/
theorem C3_press_release_pairing_witness :
    ((handle_button_event kTest
        (singleByteReport (kTest.key_data_offset + 0)) ∅).1.count
        (InputEvent.Button (buttonIndex kTest (kTest.key_data_offset + 0))
          .Pressed) = 1 ∧
      (handle_button_event kTest
        (singleByteReport (kTest.key_data_offset + 0)) ∅).1.count
        (InputEvent.Button (buttonIndex kTest (kTest.key_data_offset + 0))
          .Released) = 0) ∧
    ((handle_button_event kTest zeroReport
        (handle_button_event kTest
          (singleByteReport (kTest.key_data_offset + 0)) ∅).2).1.count
        (InputEvent.Button (buttonIndex kTest (kTest.key_data_offset + 0))
          .Released) = 1 ∧
      (handle_button_event kTest zeroReport
        (handle_button_event kTest
          (singleByteReport (kTest.key_data_offset + 0)) ∅).2).1.count
        (InputEvent.Button (buttonIndex kTest (kTest.key_data_offset + 0))
          .Pressed) = 0) ∧
    buttonIndex kTest (kTest.key_data_offset + 0) ∉
      (handle_button_event kTest zeroReport
        (handle_button_event kTest
          (singleByteReport (kTest.key_data_offset + 0)) ∅).2).2 :=
  C3_press_release_pairing kTest (by decide) ∅ 0 (by decide) (by decide)

/-- Claim C4: in every session starting from the empty state, for every key
index and every dial index, the press/release trace of that index strictly
alternates starting with `Pressed`; moreover a `Released` is only ever
emitted for an index currently recorded in the corresponding pressed set. -/
theorem C4_press_release_alternation (k : Kind) (hwf : k.WF)
    (cmds : List Report) (b : ℕ) :
    alt false ((runSession k cmds initialState).1.filterMap (keyAct b)) = true ∧
    alt false ((runSession k cmds initialState).1.filterMap (dialAct b)) = true ∧
    (∀ (cmd : Report) (pressed : Finset ℕ),
      InputEvent.Button b .Released ∈ (handle_button_event k cmd pressed).1 →
        b ∈ pressed) ∧
    (∀ (cmd : Report) (pd : Finset ℕ), pd ⊆ Finset.range k.dials →
      InputEvent.Dial b .Released ∈ (handle_dial_event k cmd pd).1 → b ∈ pd) := by
  refine ⟨?_, ?_, ?_, ?_⟩
  · have h := session_alt_keys k hwf.1 b cmds initialState
    simpa [initialState] using h
  · have h := session_alt_dials k hwf.2.1 b cmds initialState (by simp [initialState])
    simpa [initialState] using h
  · intro cmd pressed hmem
    rcases List.mem_append.mp hmem with hmem | hmem
    · obtain ⟨x, -, heq⟩ := List.mem_map.mp hmem
      simp at heq
    · obtain ⟨x, hx, heq⟩ := List.mem_map.mp hmem
      simp only [InputEvent.Button.injEq] at heq
      rw [← heq.1]
      exact (mem_buttonReleasedList.mp hx).1
  · intro cmd pd hsub hmem
    unfold handle_dial_event at hmem
    split at hmem
    · obtain ⟨q, -, hq⟩ := List.mem_filterMap.mp hmem
      split at hq
      · cases hq
      · cases hq
    · rcases List.mem_append.mp hmem with hmem | hmem
      · obtain ⟨x, -, heq⟩ := List.mem_map.mp hmem
        simp at heq
      · obtain ⟨x, hx, heq⟩ := List.mem_map.mp hmem
        simp only [InputEvent.Dial.injEq] at heq
        have hxpd := (mem_dialReleasedList.mp hx).1
        have hxlt := Finset.mem_range.mp (hsub hxpd)
        have hid : toU8 x = x := by
          unfold toU8
          have := hwf.2.1
          omega
        rw [← heq.1, hid]
        exact hxpd

/-- Claim C4 witness: a two-report press/release session on `kTest`, key
index 0. -/
theorem C4_press_release_alternation_witness :
    alt false ((runSession kTest [singleByteReport 4, zeroReport]
        initialState).1.filterMap (keyAct 0)) = true :=
  (C4_press_release_alternation kTest ⟨by decide, by decide, by decide⟩
    [singleByteReport 4, zeroReport] 0).1

/-- Claim C5 (code-bug exhibit): on a RightToLeft descriptor with 2 keys at
offset 0, holding window position 0 across two identical reports makes the
second call emit a spurious `Released` — the retain loop checks
`cmd[offset + logical_index] = cmd[2]` instead of the asserted window byte
`cmd[0]` — so the second call is NOT empty as the claim (and the spec's
idempotent-hold property) requires. -/
theorem C5_steady_hold_spurious_release :
    (handle_button_event kC5 cmdC5 ∅).1 = [InputEvent.Button 2 .Pressed] ∧
    (handle_button_event kC5 cmdC5 (handle_button_event kC5 cmdC5 ∅).2).1 =
      [InputEvent.Button 2 .Released] ∧
    (handle_button_event kC5 cmdC5 (handle_button_event kC5 cmdC5 ∅).2).1 ≠ [] := by
  have hfst : ∀ (cmd : Report) (q : Finset ℕ), (handle_button_event kC5 cmd q).1 =
      (freshButtonList kC5 cmd q).map (fun b => InputEvent.Button b .Pressed) ++
        (buttonReleasedList kC5 cmd q).map (fun b => InputEvent.Button b .Released) :=
    fun _ _ => rfl
  have h1 : (handle_button_event kC5 cmdC5 ∅).1 = [InputEvent.Button 2 .Pressed] := by
    rw [hfst, show freshButtonList kC5 cmdC5 ∅ = [2] from by decide,
      buttonReleasedList_of_empty]
    rfl
  have hs1 : (handle_button_event kC5 cmdC5 ∅).2 = {2} := by
    show buttonAfter kC5 cmdC5 ∅ = {2}
    unfold buttonAfter
    rw [Finset.filter_empty, show buttonFresh kC5 cmdC5 ∅ = {2} from by decide,
      Finset.empty_union]
  have h2rel : buttonReleasedList kC5 cmdC5 {2} = [2] := by
    have hnf : (2 : ℕ) ∉ buttonFresh kC5 cmdC5 {2} := by
      rw [show buttonFresh kC5 cmdC5 {2} = ∅ from by decide]
      exact Finset.not_mem_empty 2
    unfold buttonReleasedList
    rw [Finset.filter_singleton, if_pos ⟨by decide, hnf⟩, Finset.sort_singleton]
  have h2 : (handle_button_event kC5 cmdC5
      (handle_button_event kC5 cmdC5 ∅).2).1 = [InputEvent.Button 2 .Released] := by
    rw [hs1, hfst, show freshButtonList kC5 cmdC5 {2} = [] from by decide, h2rel]
    rfl
  exact ⟨h1, h2, by rw [h2]; decide⟩

/-- Claim C6: with the descriptor's windows and touch offsets inside the
36-byte report and the retain-check index in bounds for every producible
logical key index, every report index a decode call reads from any reachable
state is below 36, and the turn-delta arithmetic stays within the `i8` range
for every byte value. -/
theorem C6_decode_in_bounds (k : Kind) (hIB : k.InBounds) (s : InputManagerState)
    (hs : Reachable k s) (cmd : Report) :
    (∀ i ∈ inputAccessedIndices k cmd s, i < 36) ∧
    (∀ b : ℕ, b ≤ 255 → -128 ≤ dialDelta b ∧ dialDelta b ≤ 127) := by
  obtain ⟨hwin, hrel, hplus⟩ := hIB
  have hinv := reachable_invariant k s hs
  constructor
  · have hbtn : ∀ j ∈ buttonAccessedIndices k s.pressed_keys, j < 36 := by
      intro j hj
      unfold buttonAccessedIndices at hj
      rcases Finset.mem_union.mp hj with hj | hj
      · obtain ⟨p, hp, rfl⟩ := Finset.mem_image.mp hj
        rw [Finset.mem_range] at hp
        omega
      · obtain ⟨c, hcmem, rfl⟩ := Finset.mem_image.mp hj
        obtain ⟨p, hp, hbi⟩ := hinv.1 c hcmem
        have h36 := hrel p hp
        rw [hbi] at h36
        exact h36
    intro i hi
    unfold inputAccessedIndices at hi
    split at hi
    · rename_i hpl
      rcases Finset.mem_insert.mp hi with rfl | hi
      · omega
      · split_ifs at hi
        · exact hbtn i hi
        · cases htt : k.touch_data_indices with
          | none =>
            rw [htt] at hi
            simp at hi
          | some t =>
            rw [htt] at hi
            have hb2 : t.event_type_index < 36 ∧ t.x_low < 36 ∧ t.x_high < 36 ∧
                t.y_low < 36 ∧ t.y_high < 36 ∧ t.drag_x_low < 36 ∧
                t.drag_x_high < 36 ∧ t.drag_y < 36 := by
              have hb0 := (hplus hpl).2.2
              rw [htt] at hb0
              exact hb0
            obtain ⟨c1, c2, c3, c4, c5, c6, c7, c8⟩ := hb2
            unfold touchAccessedIndices at hi
            rcases Finset.mem_insert.mp hi with rfl | hi
            · exact c1
            · split_ifs at hi
              · simp only [Finset.mem_insert, Finset.mem_singleton] at hi
                rcases hi with rfl | rfl | rfl | rfl <;> omega
              · simp only [Finset.mem_insert, Finset.mem_singleton] at hi
                rcases hi with rfl | rfl | rfl | rfl | rfl | rfl | rfl <;> omega
              · simp at hi
        · have hdb := hplus hpl
          unfold dialAccessedIndices at hi
          rcases Finset.mem_insert.mp hi with rfl | hi
          · exact hdb.1
          · rcases Finset.mem_union.mp hi with hj | hj
            · obtain ⟨p, hp2, rfl⟩ := Finset.mem_image.mp hj
              rw [Finset.mem_range] at hp2
              have := hdb.2.1
              omega
            · split_ifs at hj
              · simp at hj
              · obtain ⟨c, hcmem, rfl⟩ := Finset.mem_image.mp hj
                have := Finset.mem_range.mp (hinv.2 hcmem)
                have := hdb.2.1
                omega
        · simp at hi
    · exact hbtn i hi
  · intro b hb
    unfold dialDelta
    split <;> constructor <;> omega

/-- Claim C6 witness: `kTest` satisfies the bounds and the empty state is
reachable. -/
theorem C6_decode_in_bounds_witness :
    (∀ i ∈ inputAccessedIndices kTest zeroReport initialState, i < 36) ∧
    (∀ b : ℕ, b ≤ 255 → -128 ≤ dialDelta b ∧ dialDelta b ≤ 127) :=
  C6_decode_in_bounds kTest
    ⟨by decide, by decide, fun hp => ⟨by decide, by decide,
      (by decide : (25 : ℕ) < 36 ∧ (6 : ℕ) < 36 ∧ (7 : ℕ) < 36 ∧ (8 : ℕ) < 36 ∧
        (9 : ℕ) < 36 ∧ (10 : ℕ) < 36 ∧ (11 : ℕ) < 36 ∧ (12 : ℕ) < 36)⟩⟩
    initialState Reachable.init zeroReport

end StreamdeckInput
